import Mathlib

/-!
Verification of the open-addressing hash table in `src/main.cpp`.

The C++ source is shallowly embedded: the parallel vectors `keys` and
`states` become lists, `size_t`/loop indices become `Nat`, and the three
probe loops (in `insertInternal`, `contains`, `remove`) become fuelled
recursions returning `Option`, where `none` marks a loop that has not
returned within the given fuel.  Since every probe sequence is periodic
with period `capacity`, fuel `capacity` decides termination exactly: the
C++ loop returns iff the fuelled function returns `some` with that fuel.
The `double` comparison `loadFactor() > 0.7` is modelled exactly as the
rational comparison `size / capacity > 7/10`, implemented by the
equivalent integer test `7 * capacity < 10 * size` (the equivalence with
the rational `loadFactor` is proved in `loadFactor_gt_iff`).
-/

/-- Slot state of the open-addressing table (`enum class State`). -/
inductive St where
  | Empty : St
  | Filled : St
  | Deleted : St
deriving DecidableEq

/-- The open-addressing table (`class HashTable`): parallel `keys` and
`states` vectors, the live count `sz`, and the injected hash strategy. -/
structure HashTable where
  keys : List Int
  states : List St
  sz : Nat
  hashFunc : Int → Nat → Nat

namespace HashTable

/-- Constructor `HashTable(capacity, func)`: `keys(capacity)` value-initialises
to 0, `states(capacity, State::Empty)`, `sz = 0`. -/
def mkTable (capacity : Nat) (func : Int → Nat → Nat) : HashTable :=
  { keys := List.replicate capacity 0,
    states := List.replicate capacity St.Empty,
    sz := 0,
    hashFunc := func }

/-- Read `states[i]` (out-of-range reads, which the C++ never performs in
defined executions, default to `Empty`). -/
def stateAt (t : HashTable) (i : Nat) : St := t.states.getD i St.Empty

/-- Read `keys[i]`. -/
def keyAt (t : HashTable) (i : Nat) : Int := t.keys.getD i 0

/-- Number of `Filled` slots of a slot-state list. -/
def countFilled : List St → Nat
  | [] => 0
  | s :: rest => (if s = St.Filled then 1 else 0) + countFilled rest

/-- Probe loop of `contains`: `while (states[idx] != Empty) { if (Filled &&
keys[idx] == key) return true; idx = (idx+1) % capacity; if (idx == start)
break; } return false;`.  `none` = the loop has not returned within `fuel`
iterations. -/
def containsFrom (t : HashTable) (key : Int) (start : Nat) : Nat → Nat → Option Bool
  | _, 0 => none
  | idx, fuel + 1 =>
    if t.stateAt idx = St.Empty then some false
    else if t.stateAt idx = St.Filled ∧ t.keyAt idx = key then some true
    else
      if (idx + 1) % t.keys.length = start then some false
      else containsFrom t key start ((idx + 1) % t.keys.length) fuel

/-- Source `bool contains(int key) const`.  Fuel `capacity` is exact: the wrap-around
guard makes the C++ loop return within `capacity` iterations. -/
def contains (t : HashTable) (key : Int) : Bool :=
  (containsFrom t key (t.hashFunc key t.keys.length)
    (t.hashFunc key t.keys.length) t.keys.length).getD false

/-- Probe loop of `remove`: same probe as `contains`; on a match the slot
becomes `Deleted` and `sz` is decremented. -/
def removeFrom (t : HashTable) (key : Int) (start : Nat) :
    Nat → Nat → Option (Bool × HashTable)
  | _, 0 => none
  | idx, fuel + 1 =>
    if t.stateAt idx = St.Empty then some (false, t)
    else if t.stateAt idx = St.Filled ∧ t.keyAt idx = key then
      some (true, { t with states := t.states.set idx St.Deleted, sz := t.sz - 1 })
    else
      if (idx + 1) % t.keys.length = start then some (false, t)
      else removeFrom t key start ((idx + 1) % t.keys.length) fuel

/-- Source `bool remove(int key)`, paired with the table after the call. -/
def remove (t : HashTable) (key : Int) : Bool × HashTable :=
  (removeFrom t key (t.hashFunc key t.keys.length)
    (t.hashFunc key t.keys.length) t.keys.length).getD (false, t)

/-- Probe loop of `insertInternal`: `while (states[idx] == Filled) { if
(keys[idx] == key) return; idx = (idx+1) % capacity; } keys[idx] = key;
states[idx] = Filled; ++sz;`.  This loop has no wrap-around guard, so it can
fail to terminate; `none` records exactly that (with fuel `capacity` the
probe revisits its start, after which the loop repeats forever). -/
def insertFrom (t : HashTable) (key : Int) : Nat → Nat → Option HashTable
  | _, 0 => none
  | idx, fuel + 1 =>
    if t.stateAt idx = St.Filled then
      if t.keyAt idx = key then some t
      else insertFrom t key ((idx + 1) % t.keys.length) fuel
    else
      some { t with keys := t.keys.set idx key,
                    states := t.states.set idx St.Filled,
                    sz := t.sz + 1 }

/-- Source `void insertInternal(int key)`. -/
def insertInternal (t : HashTable) (key : Int) : Option HashTable :=
  insertFrom t key (t.hashFunc key t.keys.length) t.keys.length

/-- Source `double loadFactor() const`, returning `(double)sz / keys.size()`,
modelled as an exact rational. -/
def loadFactor (t : HashTable) : ℚ := (t.sz : ℚ) / (t.keys.length : ℚ)

/-- Source `static bool isPrime(size_t n)`: trial division by `i = 2, 3, ...` while
`i * i <= n`. -/
def isPrimeFrom (n : Nat) (i : Nat) : Bool :=
  if h : i * i ≤ n then
    if n % i = 0 then false else isPrimeFrom n (i + 1)
  else true
termination_by n + 1 - i
decreasing_by
  have hle : i ≤ n := by
    rcases Nat.eq_zero_or_pos i with h0 | h0
    · omega
    · calc i = i * 1 := by omega
        _ ≤ i * i := Nat.mul_le_mul_left i h0
        _ ≤ n := h
  omega

/-- Source `static bool isPrime(size_t n)`. -/
def isPrime (n : Nat) : Bool :=
  if n < 2 then false else isPrimeFrom n 2

/-- The loop of `nextPrime`, with explicit fuel: try `n`, `n+1`, ... . -/
def nextPrimeFuel : Nat → Nat → Nat
  | n, 0 => n
  | n, fuel + 1 => if isPrime n then n else nextPrimeFuel (n + 1) fuel

/-- Source `static size_t nextPrime(size_t n)`: while not `isPrime(n)`, increment `n`.
Fuel `2 * n + 3` always suffices to reach a prime (Bertrand's postulate;
proved in `nextPrime_spec`), so this equals the least prime `≥ n`. -/
def nextPrime (n : Nat) : Nat :=
  nextPrimeFuel n (2 * n + 3)

/-- The `for` loop of `rehash`: reinsert (via `insertInternal`) the key of
every old slot whose old state is `Filled`. -/
def reinsertAll : HashTable → List (Int × St) → Option HashTable
  | t, [] => some t
  | t, p :: rest =>
    if p.2 = St.Filled then
      match insertInternal t p.1 with
      | none => none
      | some t2 => reinsertAll t2 rest
    else reinsertAll t rest

/-- Source `void rehash(size_t newCapacity)`: fresh zeroed arrays of the new
capacity, `sz = 0`, then reinsert every old `Filled` key. -/
def rehash (t : HashTable) (newCapacity : Nat) : Option HashTable :=
  reinsertAll
    { keys := List.replicate newCapacity 0,
      states := List.replicate newCapacity St.Empty,
      sz := 0,
      hashFunc := t.hashFunc }
    (t.keys.zip t.states)

/-- Source `void insert(int key)`: `insertInternal(key)`, then if `loadFactor() > 0.7`
call `rehash(nextPrime(keys.size() * 2))`.  The `double` test
`loadFactor() > 0.7` is the exact test `sz / capacity > 7/10`, written as
the equivalent integer comparison (see `loadFactor_gt_iff`). -/
def insert (t : HashTable) (key : Int) : Option HashTable :=
  (insertInternal t key).bind fun t1 =>
    if 7 * t1.keys.length < 10 * t1.sz then
      rehash t1 (nextPrime (t1.keys.length * 2))
    else some t1

/-- Source `void clear()`: every slot becomes `Empty`, `sz = 0` (keys untouched). -/
def clear (t : HashTable) : HashTable :=
  { t with states := List.replicate t.states.length St.Empty, sz := 0 }

/-- Insert a whole key sequence left to right (the benchmark's insert pass). -/
def insertAll : HashTable → List Int → Option HashTable
  | t, [] => some t
  | t, k :: ks => (insert t k).bind fun t2 => insertAll t2 ks

/-- Consume the leading run of `Filled` slots: the inner `while` of the
cluster-measuring loops.  Returns the run length and the rest of the list. -/
def takeRun : List St → Nat × List St
  | [] => (0, [])
  | St.Filled :: rest => ((takeRun rest).1 + 1, (takeRun rest).2)
  | St.Empty :: rest => (0, St.Empty :: rest)
  | St.Deleted :: rest => (0, St.Deleted :: rest)

/-- The lengths of the maximal runs of contiguous `Filled` slots, in order:
the outer scanning loop shared by `averageChainLength` and
`maxChainLength`. -/
def clusters (l : List St) : List Nat :=
  match l with
  | [] => []
  | St.Filled :: rest => ((takeRun rest).1 + 1) :: clusters (takeRun rest).2
  | St.Empty :: rest => clusters rest
  | St.Deleted :: rest => clusters rest
termination_by l.length
decreasing_by
  · have hlen : ∀ l2 : List St, (takeRun l2).2.length ≤ l2.length := by
      intro l2
      induction l2 with
      | nil => simp [takeRun]
      | cons s r2 ih =>
        cases s
        · simp [takeRun]
        · simpa [takeRun] using Nat.le_trans ih (Nat.le_succ _)
        · simp [takeRun]
    exact Nat.lt_succ_of_le (hlen rest)
  · exact Nat.lt_succ_of_le (Nat.le_refl _)
  · exact Nat.lt_succ_of_le (Nat.le_refl _)

/-- Source `double averageChainLength() const`: total filled slots across clusters
divided by the cluster count; `0.0` when there is no cluster. -/
def averageChainLength (t : HashTable) : ℚ :=
  if (clusters t.states).length = 0 then 0
  else (((clusters t.states).sum : ℕ) : ℚ) / (((clusters t.states).length : ℕ) : ℚ)

/-- Source `size_t maxChainLength() const`: `maxLen` accumulated over all runs. -/
def maxChainLength (t : HashTable) : Nat :=
  (clusters t.states).foldl max 0

end HashTable

/-- Cast `static_cast<uint32_t>(key)`: the two's-complement value of the int key
as an unsigned 32-bit number. -/
def u32 (k : Int) : Nat := (k % (2 ^ 32 : Int)).toNat

/-- Source `static size_t fibonacciHash(int key, size_t tableSize)`: the `uint32_t`
product `uint32(key) * 2654435769u` (wrapping mod 2^32), widened to 64 bits
and reduced `% tableSize`. -/
def fibonacciHash (key : Int) (tableSize : Nat) : Nat :=
  (u32 key * 2654435769) % 2 ^ 32 % tableSize

/-- Source `static size_t moduloHash(int key, size_t tableSize)`. -/
def moduloHash (key : Int) (tableSize : Nat) : Nat :=
  u32 key % tableSize

/-- Modelled from the spec: the index formula the spec asserts for the
Fibonacci strategy on a power-of-two bucket count `2 ^ b`, namely
`(unsigned(key) * 2654435769) >> (32 - log2(bucketCount))` — the high-order
bits of the 32-bit product. -/
def fibonacciHashSpecShift (key : Int) (b : Nat) : Nat :=
  ((u32 key * 2654435769) % 2 ^ 32) >>> (32 - b)

/-- Count of pairs of a key/old-state zip whose state is `Filled`. -/
def filledPairs : List (Int × St) → Nat
  | [] => 0
  | p :: rest => (if p.2 = St.Filled then 1 else 0) + filledPairs rest

namespace HashTable

/-- No slot is a tombstone. -/
def NoDeleted (t : HashTable) : Prop :=
  ∀ i, i < t.states.length → t.stateAt i ≠ St.Deleted

/-- Key `k` sits in some `Filled` slot. -/
def KeyIn (t : HashTable) (k : Int) : Prop :=
  ∃ j, j < t.states.length ∧ t.stateAt j = St.Filled ∧ t.keyAt j = k

/-- Every `Filled` slot is reachable from its key's home bucket through a
linear-probe path consisting solely of `Filled` slots.  This is the
invariant that makes `contains` find every stored key. -/
def SearchInv (t : HashTable) : Prop :=
  ∀ j, j < t.states.length → t.stateAt j = St.Filled →
    ∃ d, d < t.keys.length ∧
      (t.hashFunc (t.keyAt j) t.keys.length + d) % t.keys.length = j ∧
      ∀ i, i < d →
        t.stateAt ((t.hashFunc (t.keyAt j) t.keys.length + i) % t.keys.length) = St.Filled

/-- Structural well-formedness: parallel arrays of equal length, `sz` counts
the `Filled` slots, positive capacity, and the injected hash strategy
always returns an in-range bucket. -/
structure InvCore (t : HashTable) : Prop where
  hlen : t.keys.length = t.states.length
  hsz : t.sz = countFilled t.states
  hcap : 1 ≤ t.keys.length
  hbound : ∀ k n, 1 ≤ n → t.hashFunc k n < n

/-- Full invariant between operations: `InvCore` plus the post-insert load
bound `size / capacity ≤ 0.7`. -/
def Inv (t : HashTable) : Prop := InvCore t ∧ 10 * t.sz ≤ 7 * t.keys.length

/-- Table states reachable from a valid construction through the public
mutating operations. -/
inductive Reachable : HashTable → Prop
  | init (capacity : Nat) (func : Int → Nat → Nat) (hcap : 1 ≤ capacity)
      (hfunc : ∀ k n, 1 ≤ n → func k n < n) : Reachable (mkTable capacity func)
  | insertStep {t t2 : HashTable} {k : Int} (ht : Reachable t)
      (hins : insert t k = some t2) : Reachable t2
  | removeStep {t : HashTable} {k : Int} (ht : Reachable t) : Reachable (remove t k).2
  | clearStep {t : HashTable} (ht : Reachable t) : Reachable (clear t)

end HashTable

/-! ### Arithmetic helpers for linear probing -/

/-- Probe offsets below the capacity are determined by the probed slot. -/
theorem mod_add_cancel (cap h i j : Nat) (hi : i < cap) (hj : j < cap)
    (heq : (h + i) % cap = (h + j) % cap) : i = j := by
  have hm := Nat.ModEq.add_left_cancel' h (show h + i ≡ h + j [MOD cap] from heq)
  rwa [Nat.ModEq, Nat.mod_eq_of_lt hi, Nat.mod_eq_of_lt hj] at hm

/-- A probe that has advanced fewer than `cap` steps has not wrapped back to
its start. -/
theorem probe_no_wrap {cap start j : Nat} (hstart : start < cap) (hj0 : 0 < j)
    (hj : j < cap) : (start + j) % cap ≠ start := by
  intro heq
  have h0 : (start + j) % cap = (start + 0) % cap := by
    rw [heq, Nat.add_zero, Nat.mod_eq_of_lt hstart]
  have := mod_add_cancel cap start j 0 hj (by omega) h0
  omega

/-- Any slot `j` is reached from any start `h` at probe offset
`(cap + j - h) % cap`. -/
theorem add_dist_mod {cap h j : Nat} (hh : h < cap) (hj : j < cap) :
    (h + (cap + j - h) % cap) % cap = j := by
  rcases Nat.lt_or_ge j h with hlt | hge
  · have h1 : (cap + j - h) % cap = cap + j - h := Nat.mod_eq_of_lt (by omega)
    rw [h1]
    have h2 : h + (cap + j - h) = j + cap := by omega
    rw [h2, Nat.add_mod_right, Nat.mod_eq_of_lt hj]
  · have h1 : cap + j - h = cap + (j - h) := by omega
    rw [h1, Nat.add_mod_left]
    have h2 : (j - h) % cap = j - h := Nat.mod_eq_of_lt (by omega)
    rw [h2]
    have h3 : h + (j - h) = j := by omega
    rw [h3, Nat.mod_eq_of_lt hj]

/-! ### List helpers -/

theorem getD_set_self {α : Type} (a d : α) :
    ∀ (l : List α) (p : Nat), p < l.length → (l.set p a).getD p d = a := by
  intro l
  induction l with
  | nil => intro p hp; simp at hp
  | cons x xs ih =>
    intro p hp
    cases p with
    | zero => rfl
    | succ q => simpa [List.set, List.getD_cons_succ] using ih q (by simpa using hp)

theorem getD_set_ne {α : Type} (a d : α) :
    ∀ (l : List α) (p q : Nat), p ≠ q → (l.set p a).getD q d = l.getD q d := by
  intro l
  induction l with
  | nil => intro p q hpq; rfl
  | cons x xs ih =>
    intro p q hpq
    cases p with
    | zero =>
      cases q with
      | zero => exact absurd rfl hpq
      | succ q2 => simp [List.set, List.getD_cons_succ]
    | succ p2 =>
      cases q with
      | zero => simp [List.set]
      | succ q2 => simpa [List.set, List.getD_cons_succ] using ih p2 q2 (by omega)

theorem getD_replicate_empty :
    ∀ (n i : Nat), (List.replicate n St.Empty).getD i St.Empty = St.Empty := by
  intro n
  induction n with
  | zero => intro i; rfl
  | succ m ih =>
    intro i
    cases i with
    | zero => rfl
    | succ i2 => simpa [List.replicate, List.getD_cons_succ] using ih i2

theorem countFilled_le : ∀ l : List St, HashTable.countFilled l ≤ l.length := by
  intro l
  induction l with
  | nil => simp [HashTable.countFilled]
  | cons s rest ih =>
    simp only [HashTable.countFilled, List.length_cons]
    split <;> omega

theorem countFilled_pos :
    ∀ (l : List St) (p : Nat), p < l.length → l.getD p St.Empty = St.Filled →
      1 ≤ HashTable.countFilled l := by
  intro l
  induction l with
  | nil => intro p hp; simp at hp
  | cons s rest ih =>
    intro p hp hf
    cases p with
    | zero =>
      simp only [List.getD_cons_zero] at hf
      simp [HashTable.countFilled, hf]
    | succ q =>
      simp only [List.getD_cons_succ] at hf
      have := ih q (by simpa using hp) hf
      simp only [HashTable.countFilled]
      omega

theorem countFilled_set_filled :
    ∀ (l : List St) (p : Nat), p < l.length → l.getD p St.Empty ≠ St.Filled →
      HashTable.countFilled (l.set p St.Filled) = HashTable.countFilled l + 1 := by
  intro l
  induction l with
  | nil => intro p hp; simp at hp
  | cons s rest ih =>
    intro p hp hne
    cases p with
    | zero =>
      simp only [List.getD_cons_zero] at hne
      rw [show (s :: rest).set 0 St.Filled = St.Filled :: rest from rfl]
      simp only [HashTable.countFilled]
      rw [if_neg hne]
      simp only [if_true]
      omega
    | succ q =>
      simp only [List.getD_cons_succ] at hne
      have := ih q (by simpa using hp) hne
      simp only [List.set, HashTable.countFilled, this]
      omega

theorem countFilled_set_deleted :
    ∀ (l : List St) (p : Nat), p < l.length → l.getD p St.Empty = St.Filled →
      HashTable.countFilled l = HashTable.countFilled (l.set p St.Deleted) + 1 := by
  intro l
  induction l with
  | nil => intro p hp; simp at hp
  | cons s rest ih =>
    intro p hp hf
    cases p with
    | zero =>
      simp only [List.getD_cons_zero] at hf
      subst hf
      rw [show (St.Filled :: rest).set 0 St.Deleted = St.Deleted :: rest from rfl]
      simp only [HashTable.countFilled]
      rw [if_neg (by simp : ¬ (St.Deleted = St.Filled))]
      simp only [if_true]
      omega
    | succ q =>
      simp only [List.getD_cons_succ] at hf
      have := ih q (by simpa using hp) hf
      simp only [List.set, HashTable.countFilled]
      omega

theorem countFilled_replicate :
    ∀ n : Nat, HashTable.countFilled (List.replicate n St.Empty) = 0 := by
  intro n
  induction n with
  | zero => rfl
  | succ m ih => simpa [List.replicate, HashTable.countFilled] using ih

theorem exists_not_filled :
    ∀ l : List St, HashTable.countFilled l < l.length →
      ∃ m, m < l.length ∧ l.getD m St.Empty ≠ St.Filled := by
  intro l
  induction l with
  | nil => intro h; simp at h
  | cons s rest ih =>
    intro h
    by_cases hs : s = St.Filled
    · have h2 : HashTable.countFilled rest < rest.length := by
        simp [HashTable.countFilled, hs, List.length_cons] at h
        omega
      obtain ⟨m, hm, hne⟩ := ih h2
      exact ⟨m + 1, by simpa using hm, by simpa [List.getD_cons_succ] using hne⟩
    · exact ⟨0, by simp, by simpa using hs⟩

theorem filledPairs_zip :
    ∀ (l1 : List Int) (l2 : List St), l1.length = l2.length →
      filledPairs (l1.zip l2) = HashTable.countFilled l2 := by
  intro l1
  induction l1 with
  | nil =>
    intro l2 hlen
    cases l2 with
    | nil => rfl
    | cons b bs => simp at hlen
  | cons a as ih =>
    intro l2 hlen
    cases l2 with
    | nil => simp at hlen
    | cons b bs =>
      show (if b = St.Filled then 1 else 0) + filledPairs (as.zip bs) =
        (if b = St.Filled then 1 else 0) + HashTable.countFilled bs
      rw [ih bs (by simpa using hlen)]

theorem zip_filled_mem :
    ∀ (l1 : List Int) (l2 : List St), l1.length = l2.length → ∀ κ : Int,
      ((κ, St.Filled) ∈ l1.zip l2 ↔
        ∃ j, j < l2.length ∧ l2.getD j St.Empty = St.Filled ∧ l1.getD j 0 = κ) := by
  intro l1
  induction l1 with
  | nil =>
    intro l2 hlen κ
    cases l2 with
    | nil => simp
    | cons b bs => simp at hlen
  | cons a as ih =>
    intro l2 hlen κ
    cases l2 with
    | nil => simp at hlen
    | cons b bs =>
      simp only [List.zip_cons_cons, List.mem_cons]
      constructor
      · intro h
        rcases h with h | h
        · refine ⟨0, by simp, ?_, ?_⟩
          · simpa using congrArg Prod.snd h.symm
          · simpa using congrArg Prod.fst h.symm
        · obtain ⟨j, hj, hf, hk⟩ := (ih bs (by simpa using hlen) κ).mp h
          exact ⟨j + 1, by simpa using hj,
            by simpa [List.getD_cons_succ] using hf,
            by simpa [List.getD_cons_succ] using hk⟩
      · rintro ⟨j, hj, hf, hk⟩
        cases j with
        | zero =>
          left
          simp only [List.getD_cons_zero] at hf hk
          rw [hk, hf]
        | succ j2 =>
          right
          refine (ih bs (by simpa using hlen) κ).mpr ⟨j2, by simpa using hj, ?_, ?_⟩
          · simpa [List.getD_cons_succ] using hf
          · simpa [List.getD_cons_succ] using hk

/-! ### `isPrime` / `nextPrime` -/

/-- Bounded-induction core of `isPrimeFrom_spec`. -/
theorem isPrimeFrom_spec_aux :
    ∀ (b n i : Nat), n + 1 - i ≤ b →
      (HashTable.isPrimeFrom n i = true ↔ ∀ j, i ≤ j → j * j ≤ n → n % j ≠ 0) := by
  intro b
  induction b with
  | zero =>
    intro n i hb
    have hni : n + 1 ≤ i := by omega
    have hii : ¬ i * i ≤ n := by nlinarith
    rw [HashTable.isPrimeFrom, dif_neg hii]
    simp only [true_iff]
    intro j hij hjj
    nlinarith
  | succ b2 ih =>
    intro n i hb
    rw [HashTable.isPrimeFrom]
    split
    · rename_i hii
      have hin : i ≤ n := by nlinarith
      split
      · rename_i hmod
        simp only [Bool.false_eq_true, false_iff]
        push_neg
        exact ⟨i, Nat.le_refl i, hii, hmod⟩
      · rename_i hmod
        rw [ih n (i + 1) (by omega)]
        constructor
        · intro hall j hij hjj
          rcases Nat.eq_or_lt_of_le hij with heq | hlt
          · subst heq; exact hmod
          · exact hall j hlt hjj
        · intro hall j hij hjj
          exact hall j (by omega) hjj
    · rename_i hii
      simp only [true_iff]
      intro j hij hjj
      have h2 : i * i ≤ j * j := Nat.mul_le_mul hij hij
      omega

/-- The trial-division loop starting at `i` accepts exactly when no
candidate divisor `j ≥ i` with `j * j ≤ n` divides `n`. -/
theorem isPrimeFrom_spec (n i : Nat) :
    HashTable.isPrimeFrom n i = true ↔ ∀ j, i ≤ j → j * j ≤ n → n % j ≠ 0 :=
  isPrimeFrom_spec_aux (n + 1 - i) n i (Nat.le_refl _)

/-- The source's `isPrime` agrees with primality. -/
theorem isPrime_iff (n : Nat) : HashTable.isPrime n = true ↔ Nat.Prime n := by
  rw [HashTable.isPrime]
  split
  · rename_i hlt
    simp only [Bool.false_eq_true, false_iff]
    intro hp
    exact absurd hp.two_le (by omega)
  · rename_i hge
    rw [isPrimeFrom_spec, Nat.prime_def_le_sqrt]
    constructor
    · intro hall
      refine ⟨by omega, ?_⟩
      intro m hm hms hdvd
      exact hall m hm (Nat.le_sqrt.mp hms) (Nat.dvd_iff_mod_eq_zero.mp hdvd)
    · rintro ⟨h2, hall⟩ j hj hjj hmod
      exact hall j hj (Nat.le_sqrt.mpr hjj) (Nat.dvd_iff_mod_eq_zero.mpr hmod)

/-- If a prime occurs within `fuel` candidates, the `nextPrime` loop returns
the least acceptable candidate. -/
theorem nextPrimeFuel_found :
    ∀ (fuel n : Nat), (∃ i, i < fuel ∧ HashTable.isPrime (n + i) = true) →
      HashTable.isPrime (HashTable.nextPrimeFuel n fuel) = true ∧
      n ≤ HashTable.nextPrimeFuel n fuel ∧
      ∀ m, n ≤ m → m < HashTable.nextPrimeFuel n fuel →
        HashTable.isPrime m = false := by
  intro fuel
  induction fuel with
  | zero =>
    intro n h
    obtain ⟨i, hi, _⟩ := h
    omega
  | succ f ih =>
    intro n h
    rw [HashTable.nextPrimeFuel]
    split
    · rename_i hp
      exact ⟨hp, Nat.le_refl n, fun m hm1 hm2 => absurd hm1 (by omega)⟩
    · rename_i hp
      obtain ⟨i, hi, hip⟩ := h
      obtain ⟨i2, rfl⟩ : ∃ i2, i = i2 + 1 := by
        cases i with
        | zero => exact absurd (by simpa using hip) hp
        | succ i2 => exact ⟨i2, rfl⟩
      have h2 : ∃ i3, i3 < f ∧ HashTable.isPrime (n + 1 + i3) = true :=
        ⟨i2, by omega, by rw [show n + 1 + i2 = n + (i2 + 1) from by omega]; exact hip⟩
      obtain ⟨ha, hb, hc⟩ := ih (n + 1) h2
      refine ⟨ha, by omega, ?_⟩
      intro m hm1 hm2
      rcases Nat.eq_or_lt_of_le hm1 with heq | hlt
      · subst heq
        exact Bool.eq_false_iff.mpr hp
      · exact hc m (by omega) hm2

/-- A prime always occurs among the `2 * n + 3` candidates starting at `n`
(Bertrand's postulate). -/
theorem exists_isPrime_near (n : Nat) :
    ∃ i, i < 2 * n + 3 ∧ HashTable.isPrime (n + i) = true := by
  rcases Nat.eq_zero_or_pos n with h0 | h0
  · subst h0
    exact ⟨2, by omega, (isPrime_iff 2).mpr Nat.prime_two⟩
  · obtain ⟨p, hp, hlt, hle⟩ := Nat.exists_prime_lt_and_le_two_mul n (by omega)
    exact ⟨p - n, by omega,
      by rw [show n + (p - n) = p from by omega]; exact (isPrime_iff p).mpr hp⟩

/-- Value `nextPrime n` is the least prime `≥ n`. -/
theorem nextPrime_spec (n : Nat) :
    Nat.Prime (HashTable.nextPrime n) ∧ n ≤ HashTable.nextPrime n ∧
      ∀ m, n ≤ m → m < HashTable.nextPrime n → ¬ Nat.Prime m := by
  obtain ⟨ha, hb, hc⟩ := nextPrimeFuel_found (2 * n + 3) n (exists_isPrime_near n)
  refine ⟨(isPrime_iff _).mp ha, hb, ?_⟩
  intro m h1 h2 hp
  have hfalse := hc m h1 h2
  rw [(isPrime_iff m).mpr hp] at hfalse
  exact absurd hfalse (by simp)

/-! ### The `double` load-factor test as an exact rational -/

/-- The growth test of `insert` is exactly `loadFactor() > 0.7`. -/
theorem loadFactor_gt_iff (t : HashTable) (hcap : 1 ≤ t.keys.length) :
    ((7 : ℚ) / 10 < t.loadFactor ↔ 7 * t.keys.length < 10 * t.sz) := by
  rw [HashTable.loadFactor,
    div_lt_div_iff (by norm_num) (by exact_mod_cast Nat.pos_of_ne_zero (by omega))]
  constructor
  · intro h
    have h2 : (7 * t.keys.length : ℚ) < (10 * t.sz : ℚ) := by push_cast at h ⊢; linarith
    exact_mod_cast h2
  · intro h
    have h2 : (7 * t.keys.length : ℚ) < (10 * t.sz : ℚ) := by exact_mod_cast h
    push_cast at h2 ⊢
    linarith

/-- Integer form of the invariant bound turned into the rational statement
`size / capacity ≤ 0.7`. -/
theorem loadFactor_le_of_bound (t : HashTable) (hcap : 1 ≤ t.keys.length)
    (h : 10 * t.sz ≤ 7 * t.keys.length) : t.loadFactor ≤ 7 / 10 := by
  rw [HashTable.loadFactor,
    div_le_div_iff (by exact_mod_cast Nat.pos_of_ne_zero (by omega)) (by norm_num)]
  have h2 : (10 * t.sz : ℚ) ≤ (7 * t.keys.length : ℚ) := by exact_mod_cast h
  push_cast at h2 ⊢
  linarith

/-! ### Characterisation of the probe loops -/

/-- Complete characterisation of a successful `insertInternal` probe: some
prefix of the probe sequence is `Filled` with keys different from `key`,
and the probe then either finds `key` in a `Filled` slot (no-op) or claims
the first non-`Filled` slot. -/
theorem insertFrom_char (t : HashTable) (key : Int) :
    ∀ (fuel idx : Nat) (t2 : HashTable), idx < t.keys.length →
      HashTable.insertFrom t key idx fuel = some t2 →
      ∃ i, i < fuel ∧
        (∀ i2, i2 < i → t.stateAt ((idx + i2) % t.keys.length) = St.Filled ∧
          t.keyAt ((idx + i2) % t.keys.length) ≠ key) ∧
        ((t.stateAt ((idx + i) % t.keys.length) = St.Filled ∧
          t.keyAt ((idx + i) % t.keys.length) = key ∧ t2 = t) ∨
         (t.stateAt ((idx + i) % t.keys.length) ≠ St.Filled ∧
          t2 = { t with keys := t.keys.set ((idx + i) % t.keys.length) key,
                        states := t.states.set ((idx + i) % t.keys.length) St.Filled,
                        sz := t.sz + 1 })) := by
  intro fuel
  induction fuel with
  | zero =>
    intro idx t2 hidx h
    simp [HashTable.insertFrom] at h
  | succ f ih =>
    intro idx t2 hidx h
    rw [HashTable.insertFrom] at h
    have hmod : idx % t.keys.length = idx := Nat.mod_eq_of_lt hidx
    by_cases hf : t.stateAt idx = St.Filled
    · rw [if_pos hf] at h
      by_cases hk : t.keyAt idx = key
      · rw [if_pos hk] at h
        injection h with h2
        refine ⟨0, by omega, fun i2 hi2 => absurd hi2 (by omega), Or.inl ?_⟩
        rw [Nat.add_zero, hmod]
        exact ⟨hf, hk, h2.symm⟩
      · rw [if_neg hk] at h
        have hcap : 0 < t.keys.length := by omega
        obtain ⟨i, hi, hvis, hend⟩ :=
          ih ((idx + 1) % t.keys.length) t2 (Nat.mod_lt _ hcap) h
        have hshift : ∀ m : Nat, ((idx + 1) % t.keys.length + m) % t.keys.length =
            (idx + (m + 1)) % t.keys.length := by
          intro m
          rw [Nat.mod_add_mod]
          congr 1
          omega
        refine ⟨i + 1, by omega, ?_, ?_⟩
        · intro i2 hi2
          cases i2 with
          | zero => rw [Nat.add_zero, hmod]; exact ⟨hf, hk⟩
          | succ i3 =>
            have h3 := hvis i3 (by omega)
            rwa [hshift i3] at h3
        · rwa [hshift i] at hend
    · rw [if_neg hf] at h
      injection h with h2
      refine ⟨0, by omega, fun i2 hi2 => absurd hi2 (by omega), Or.inr ?_⟩
      rw [Nat.add_zero, hmod]
      exact ⟨hf, h2.symm⟩

/-- The `insertInternal` probe returns as soon as a non-`Filled` slot is
within reach of the fuel. -/
theorem insertFrom_total (t : HashTable) (key : Int) :
    ∀ (fuel idx : Nat), idx < t.keys.length →
      (∃ i, i < fuel ∧ t.stateAt ((idx + i) % t.keys.length) ≠ St.Filled) →
      ∃ t2, HashTable.insertFrom t key idx fuel = some t2 := by
  intro fuel
  induction fuel with
  | zero =>
    intro idx hidx h
    obtain ⟨i, hi, _⟩ := h
    omega
  | succ f ih =>
    intro idx hidx h
    rw [HashTable.insertFrom]
    by_cases hf : t.stateAt idx = St.Filled
    · rw [if_pos hf]
      by_cases hk : t.keyAt idx = key
      · rw [if_pos hk]
        exact ⟨t, rfl⟩
      · rw [if_neg hk]
        apply ih ((idx + 1) % t.keys.length) (Nat.mod_lt _ (by omega))
        obtain ⟨i, hi, hne⟩ := h
        have hmod : idx % t.keys.length = idx := Nat.mod_eq_of_lt hidx
        cases i with
        | zero =>
          rw [Nat.add_zero, hmod] at hne
          exact absurd hf hne
        | succ i3 =>
          refine ⟨i3, by omega, ?_⟩
          have hshift : ((idx + 1) % t.keys.length + i3) % t.keys.length =
              (idx + (i3 + 1)) % t.keys.length := by
            rw [Nat.mod_add_mod]
            congr 1
            omega
          rw [hshift]
          exact hne
    · rw [if_neg hf]
      exact ⟨_, rfl⟩

/-- If a `Filled` slot holding `key` is reachable through `Filled` slots
from `idx` without wrapping to `start`, the `contains` probe answers true. -/
theorem containsFrom_found (t : HashTable) (key : Int) (start : Nat) :
    ∀ (m idx fuel : Nat), idx < t.keys.length →
      (∀ i2, i2 < m → t.stateAt ((idx + i2) % t.keys.length) = St.Filled) →
      t.stateAt ((idx + m) % t.keys.length) = St.Filled →
      t.keyAt ((idx + m) % t.keys.length) = key →
      m < fuel →
      (∀ i2, i2 < m → (idx + i2 + 1) % t.keys.length ≠ start) →
      HashTable.containsFrom t key start idx fuel = some true := by
  intro m
  induction m with
  | zero =>
    intro idx fuel hidx hvis hf hk hmf hg
    obtain ⟨f2, rfl⟩ : ∃ f2, fuel = f2 + 1 := ⟨fuel - 1, by omega⟩
    rw [HashTable.containsFrom]
    have hmod : idx % t.keys.length = idx := Nat.mod_eq_of_lt hidx
    rw [Nat.add_zero, hmod] at hf hk
    rw [if_neg (by rw [hf]; simp), if_pos ⟨hf, hk⟩]
  | succ m2 ih =>
    intro idx fuel hidx hvis hf hk hmf hg
    obtain ⟨f2, rfl⟩ : ∃ f2, fuel = f2 + 1 := ⟨fuel - 1, by omega⟩
    rw [HashTable.containsFrom]
    have hmod : idx % t.keys.length = idx := Nat.mod_eq_of_lt hidx
    have h0 : t.stateAt idx = St.Filled := by
      have h1 := hvis 0 (by omega)
      rwa [Nat.add_zero, hmod] at h1
    rw [if_neg (by rw [h0]; simp)]
    by_cases hmatch : t.stateAt idx = St.Filled ∧ t.keyAt idx = key
    · rw [if_pos hmatch]
    · rw [if_neg hmatch]
      have hg0 : (idx + 1) % t.keys.length ≠ start := by
        have h1 := hg 0 (by omega)
        rwa [Nat.add_zero] at h1
      rw [if_neg hg0]
      have hcap : 0 < t.keys.length := by omega
      have hshift : ∀ m3 : Nat, ((idx + 1) % t.keys.length + m3) % t.keys.length =
          (idx + (m3 + 1)) % t.keys.length := by
        intro m3
        rw [Nat.mod_add_mod]
        congr 1
        omega
      apply ih ((idx + 1) % t.keys.length) f2 (Nat.mod_lt _ hcap)
      · intro i2 hi2
        rw [hshift i2]
        exact hvis (i2 + 1) (by omega)
      · rw [hshift m2]
        exact hf
      · rw [hshift m2]
        exact hk
      · omega
      · intro i2 hi2
        have hsh2 : ((idx + 1) % t.keys.length + i2 + 1) % t.keys.length =
            (idx + (i2 + 1) + 1) % t.keys.length := by
          rw [show (idx + 1) % t.keys.length + i2 + 1 =
            (idx + 1) % t.keys.length + (i2 + 1) from by omega, Nat.mod_add_mod]
          congr 1
          omega
        rw [hsh2]
        exact hg (i2 + 1) (by omega)

/-- In a table with no `Empty` slot and no slot holding `key`, the
`contains` probe wraps around and returns false, for any fuel covering the
remaining distance to the wrap (in particular fuel `capacity` from the home
bucket). -/
theorem containsFrom_absent (t : HashTable) (key : Int) (start : Nat)
    (hlen : t.keys.length = t.states.length) (hstart : start < t.keys.length)
    (hsat : ∀ i, i < t.states.length → t.stateAt i ≠ St.Empty)
    (habs : ∀ i, i < t.states.length → t.stateAt i = St.Filled → t.keyAt i ≠ key) :
    ∀ (fuel j : Nat), j < t.keys.length → t.keys.length - j ≤ fuel →
      HashTable.containsFrom t key start ((start + j) % t.keys.length) fuel =
        some false := by
  intro fuel
  induction fuel with
  | zero =>
    intro j hj hfj
    omega
  | succ f ih =>
    intro j hj hfj
    rw [HashTable.containsFrom]
    have hcap : 0 < t.keys.length := by omega
    have hidxlt : (start + j) % t.keys.length < t.keys.length := Nat.mod_lt _ hcap
    have hidxst : (start + j) % t.keys.length < t.states.length := by omega
    rw [if_neg (hsat _ hidxst)]
    have hnm : ¬ (t.stateAt ((start + j) % t.keys.length) = St.Filled ∧
        t.keyAt ((start + j) % t.keys.length) = key) := by
      rintro ⟨h1, h2⟩
      exact habs _ hidxst h1 h2
    rw [if_neg hnm]
    by_cases hwrap : j + 1 = t.keys.length
    · have heq : ((start + j) % t.keys.length + 1) % t.keys.length = start := by
        rw [Nat.mod_add_mod,
          show start + j + 1 = start + t.keys.length from by omega,
          Nat.add_mod_right, Nat.mod_eq_of_lt hstart]
      rw [if_pos heq]
    · have hne : ((start + j) % t.keys.length + 1) % t.keys.length ≠ start := by
        rw [Nat.mod_add_mod, show start + j + 1 = start + (j + 1) from by omega]
        exact probe_no_wrap hstart (by omega) (by omega)
      rw [if_neg hne]
      have hstep : ((start + j) % t.keys.length + 1) % t.keys.length =
          (start + (j + 1)) % t.keys.length := by
        rw [Nat.mod_add_mod]
        congr 1
      rw [hstep]
      exact ih (j + 1) (by omega) (by omega)

/-- Complete characterisation of a returning `remove` probe. -/
theorem removeFrom_char (t : HashTable) (key : Int) (start : Nat) :
    ∀ (fuel idx : Nat) (b : Bool) (t2 : HashTable), idx < t.keys.length →
      HashTable.removeFrom t key start idx fuel = some (b, t2) →
      (b = false ∧ t2 = t) ∨
      (b = true ∧ ∃ p, p < t.keys.length ∧ t.stateAt p = St.Filled ∧
        t.keyAt p = key ∧
        t2 = { t with states := t.states.set p St.Deleted, sz := t.sz - 1 }) := by
  intro fuel
  induction fuel with
  | zero =>
    intro idx b t2 hidx h
    simp [HashTable.removeFrom] at h
  | succ f ih =>
    intro idx b t2 hidx h
    rw [HashTable.removeFrom] at h
    by_cases he : t.stateAt idx = St.Empty
    · rw [if_pos he] at h
      simp only [Option.some.injEq, Prod.mk.injEq] at h
      exact Or.inl ⟨h.1.symm, h.2.symm⟩
    · rw [if_neg he] at h
      by_cases hm : t.stateAt idx = St.Filled ∧ t.keyAt idx = key
      · rw [if_pos hm] at h
        simp only [Option.some.injEq, Prod.mk.injEq] at h
        exact Or.inr ⟨h.1.symm, idx, hidx, hm.1, hm.2, h.2.symm⟩
      · rw [if_neg hm] at h
        by_cases hw : (idx + 1) % t.keys.length = start
        · rw [if_pos hw] at h
          simp only [Option.some.injEq, Prod.mk.injEq] at h
          exact Or.inl ⟨h.1.symm, h.2.symm⟩
        · rw [if_neg hw] at h
          exact ih _ b t2 (Nat.mod_lt _ (by omega)) h

/-- Saturated-table analogue of `containsFrom_absent` for `remove`. -/
theorem removeFrom_absent (t : HashTable) (key : Int) (start : Nat)
    (hlen : t.keys.length = t.states.length) (hstart : start < t.keys.length)
    (hsat : ∀ i, i < t.states.length → t.stateAt i ≠ St.Empty)
    (habs : ∀ i, i < t.states.length → t.stateAt i = St.Filled → t.keyAt i ≠ key) :
    ∀ (fuel j : Nat), j < t.keys.length → t.keys.length - j ≤ fuel →
      HashTable.removeFrom t key start ((start + j) % t.keys.length) fuel =
        some (false, t) := by
  intro fuel
  induction fuel with
  | zero =>
    intro j hj hfj
    omega
  | succ f ih =>
    intro j hj hfj
    rw [HashTable.removeFrom]
    have hcap : 0 < t.keys.length := by omega
    have hidxlt : (start + j) % t.keys.length < t.keys.length := Nat.mod_lt _ hcap
    have hidxst : (start + j) % t.keys.length < t.states.length := by omega
    rw [if_neg (hsat _ hidxst)]
    have hnm : ¬ (t.stateAt ((start + j) % t.keys.length) = St.Filled ∧
        t.keyAt ((start + j) % t.keys.length) = key) := by
      rintro ⟨h1, h2⟩
      exact habs _ hidxst h1 h2
    rw [if_neg hnm]
    by_cases hwrap : j + 1 = t.keys.length
    · have heq : ((start + j) % t.keys.length + 1) % t.keys.length = start := by
        rw [Nat.mod_add_mod,
          show start + j + 1 = start + t.keys.length from by omega,
          Nat.add_mod_right, Nat.mod_eq_of_lt hstart]
      rw [if_pos heq]
    · have hne : ((start + j) % t.keys.length + 1) % t.keys.length ≠ start := by
        rw [Nat.mod_add_mod, show start + j + 1 = start + (j + 1) from by omega]
        exact probe_no_wrap hstart (by omega) (by omega)
      rw [if_neg hne]
      have hstep : ((start + j) % t.keys.length + 1) % t.keys.length =
          (start + (j + 1)) % t.keys.length := by
        rw [Nat.mod_add_mod]
        congr 1
      rw [hstep]
      exact ih (j + 1) (by omega) (by omega)

/-! ### Effect of `insertInternal` under the invariant -/

/-- Under the structural invariant, with at least one non-`Filled` slot,
`insertInternal` succeeds, preserves the invariant, adds exactly the given
key to the stored key set, creates no tombstone, and preserves the
probe-path invariant. -/
theorem insertInternal_spec (t : HashTable) (key : Int)
    (hc : HashTable.InvCore t)
    (hroom : HashTable.countFilled t.states < t.keys.length) :
    ∃ t1, HashTable.insertInternal t key = some t1 ∧ HashTable.InvCore t1 ∧
      t1.keys.length = t.keys.length ∧ t1.hashFunc = t.hashFunc ∧
      t.sz ≤ t1.sz ∧ t1.sz ≤ t.sz + 1 ∧
      (∀ κ, HashTable.KeyIn t1 κ ↔ (HashTable.KeyIn t κ ∨ κ = key)) ∧
      (HashTable.NoDeleted t → HashTable.NoDeleted t1) ∧
      (HashTable.SearchInv t → HashTable.SearchInv t1) := by
  obtain ⟨hlen, hsz, hcap, hbound⟩ := hc
  have hstart : t.hashFunc key t.keys.length < t.keys.length :=
    hbound key t.keys.length hcap
  have hexists : ∃ i, i < t.keys.length ∧
      t.stateAt ((t.hashFunc key t.keys.length + i) % t.keys.length) ≠ St.Filled := by
    obtain ⟨m, hm, hmne⟩ := exists_not_filled t.states (by omega)
    refine ⟨(t.keys.length + m - t.hashFunc key t.keys.length) % t.keys.length,
      Nat.mod_lt _ (by omega), ?_⟩
    show t.states.getD _ St.Empty ≠ St.Filled
    rw [add_dist_mod hstart (show m < t.keys.length by omega)]
    exact hmne
  obtain ⟨t1, ht1⟩ :=
    insertFrom_total t key t.keys.length (t.hashFunc key t.keys.length) hstart hexists
  obtain ⟨i, hi, hvis, hend⟩ :=
    insertFrom_char t key t.keys.length (t.hashFunc key t.keys.length) t1 hstart ht1
  refine ⟨t1, ht1, ?_⟩
  rcases hend with ⟨hfS, hfK, heq⟩ | ⟨hnf, heq⟩
  · rw [heq]
    have hkin : HashTable.KeyIn t key := by
      refine ⟨(t.hashFunc key t.keys.length + i) % t.keys.length, ?_, hfS, hfK⟩
      have h2 := Nat.mod_lt (t.hashFunc key t.keys.length + i)
        (show 0 < t.keys.length by omega)
      omega
    refine ⟨⟨hlen, hsz, hcap, hbound⟩, rfl, rfl, Nat.le_refl _, by omega,
      ?_, fun h => h, fun h => h⟩
    intro κ
    constructor
    · exact fun h => Or.inl h
    · rintro (h | rfl)
      · exact h
      · exact hkin
  · subst heq
    have hplt : (t.hashFunc key t.keys.length + i) % t.keys.length < t.keys.length :=
      Nat.mod_lt _ (by omega)
    set p := (t.hashFunc key t.keys.length + i) % t.keys.length with hpdef
    have hpst : p < t.states.length := by omega
    have hstP : (t.states.set p St.Filled).getD p St.Empty = St.Filled :=
      getD_set_self _ _ _ p hpst
    have hstA : ∀ x, x ≠ p →
        (t.states.set p St.Filled).getD x St.Empty = t.states.getD x St.Empty :=
      fun x hx => getD_set_ne _ _ _ p x (fun h => hx h.symm)
    have hkyP : (t.keys.set p key).getD p 0 = key := getD_set_self _ _ _ p hplt
    have hkyA : ∀ x, x ≠ p → (t.keys.set p key).getD x 0 = t.keys.getD x 0 :=
      fun x hx => getD_set_ne _ _ _ p x (fun h => hx h.symm)
    have hnf2 : t.states.getD p St.Empty ≠ St.Filled := hnf
    have hFmono : ∀ x, x < t.states.length → t.states.getD x St.Empty = St.Filled →
        (t.states.set p St.Filled).getD x St.Empty = St.Filled := by
      intro x hx hxf
      by_cases hxp : x = p
      · subst hxp
        exact hstP
      · rw [hstA x hxp]
        exact hxf
    refine ⟨⟨by simp [hlen], ?_, by simpa using hcap, hbound⟩,
      by simp, rfl, by simp, by simp, ?_, ?_, ?_⟩
    · show t.sz + 1 = HashTable.countFilled (t.states.set p St.Filled)
      rw [countFilled_set_filled t.states p hpst hnf2, hsz]
    · -- key-set extension
      intro κ
      constructor
      · rintro ⟨j, hj, hjf, hjk⟩
        simp only [List.length_set] at hj
        by_cases hjp : j = p
        · subst hjp
          right
          have hk2 : (t.keys.set p key).getD p 0 = κ := hjk
          rw [hkyP] at hk2
          exact hk2.symm
        · left
          refine ⟨j, hj, ?_, ?_⟩
          · show t.states.getD j St.Empty = St.Filled
            rw [← hstA j hjp]
            exact hjf
          · show t.keys.getD j 0 = κ
            rw [← hkyA j hjp]
            exact hjk
      · rintro (⟨j, hj, hjf, hjk⟩ | rfl)
        · have hjp : j ≠ p := by
            intro h2
            subst h2
            exact hnf2 hjf
          refine ⟨j, by simpa using hj, ?_, ?_⟩
          · show (t.states.set p St.Filled).getD j St.Empty = St.Filled
            rw [hstA j hjp]
            exact hjf
          · show (t.keys.set p key).getD j 0 = κ
            rw [hkyA j hjp]
            exact hjk
        · exact ⟨p, by simpa using hpst, hstP, hkyP⟩
    · -- no new tombstones
      intro hnd x hx
      simp only [List.length_set] at hx
      by_cases hxp : x = p
      · show (t.states.set p St.Filled).getD x St.Empty ≠ St.Deleted
        rw [hxp, hstP]
        simp
      · show (t.states.set p St.Filled).getD x St.Empty ≠ St.Deleted
        rw [hstA x hxp]
        exact hnd x hx
    · -- probe-path invariant
      intro hsi j hj hjf
      simp only [List.length_set] at hj ⊢
      by_cases hjp : j = p
      · subst hjp
        have hky : HashTable.keyAt
            { t with keys := t.keys.set p key,
                     states := t.states.set p St.Filled, sz := t.sz + 1 } p = key := hkyP
        rw [hky]
        refine ⟨i, hi, hpdef.symm, ?_⟩
        intro i2 hi2
        obtain ⟨hv1, hv2⟩ := hvis i2 hi2
        show (t.states.set p St.Filled).getD
          ((t.hashFunc key t.keys.length + i2) % t.keys.length) St.Empty = St.Filled
        exact hFmono _ (by
          have h3 := Nat.mod_lt (t.hashFunc key t.keys.length + i2)
            (show 0 < t.keys.length by omega)
          omega) hv1
      · have hjst : j < t.states.length := hj
        have hjf2 : t.states.getD j St.Empty = St.Filled := by
          rw [← hstA j hjp]
          exact hjf
        obtain ⟨d, hd, hdeq, hpath⟩ := hsi j hjst hjf2
        have hky : HashTable.keyAt
            { t with keys := t.keys.set p key,
                     states := t.states.set p St.Filled, sz := t.sz + 1 } j =
            HashTable.keyAt t j := hkyA j hjp
        rw [hky]
        refine ⟨d, hd, hdeq, ?_⟩
        intro i2 hi2
        have h4 := hpath i2 hi2
        show (t.states.set p St.Filled).getD
          ((t.hashFunc (HashTable.keyAt t j) t.keys.length + i2) % t.keys.length)
          St.Empty = St.Filled
        exact hFmono _ (by
          have h3 := Nat.mod_lt (t.hashFunc (HashTable.keyAt t j) t.keys.length + i2)
            (show 0 < t.keys.length by omega)
          omega) h4

/-! ### Effect of `rehash`, `insert`, `remove`, `clear` -/

/-- The reinsertion loop of `rehash`: with enough free slots it succeeds,
preserves the invariant, adds exactly the `Filled` keys of the processed
list, creates no tombstone, and preserves the probe-path invariant. -/
theorem reinsertAll_spec :
    ∀ (l : List (Int × St)) (t : HashTable),
      HashTable.InvCore t →
      HashTable.countFilled t.states + filledPairs l < t.keys.length →
      ∃ t2, HashTable.reinsertAll t l = some t2 ∧ HashTable.InvCore t2 ∧
        t2.keys.length = t.keys.length ∧ t2.hashFunc = t.hashFunc ∧
        t2.sz ≤ t.sz + filledPairs l ∧
        (HashTable.NoDeleted t → HashTable.NoDeleted t2) ∧
        (HashTable.SearchInv t → HashTable.SearchInv t2) ∧
        (∀ κ, HashTable.KeyIn t2 κ ↔
          (HashTable.KeyIn t κ ∨ (κ, St.Filled) ∈ l)) := by
  intro l
  induction l with
  | nil =>
    intro t hc hroom
    exact ⟨t, rfl, hc, rfl, rfl, by simp [filledPairs], fun h => h, fun h => h,
      fun κ => by simp⟩
  | cons hd rest ih =>
    intro t hc hroom
    obtain ⟨a, b⟩ := hd
    by_cases hf : b = St.Filled
    · subst hf
      have hfp : filledPairs ((a, St.Filled) :: rest) = 1 + filledPairs rest := by
        simp [filledPairs]
      have hroom1 : HashTable.countFilled t.states < t.keys.length := by omega
      obtain ⟨t1, hins, hc1, hlen1, hhf1, hsz1a, hsz1b, hkeys1, hnd1, hsi1⟩ :=
        insertInternal_spec t a hc hroom1
      have hcount1 : HashTable.countFilled t1.states ≤
          HashTable.countFilled t.states + 1 := by
        calc HashTable.countFilled t1.states = t1.sz := hc1.hsz.symm
          _ ≤ t.sz + 1 := hsz1b
          _ = HashTable.countFilled t.states + 1 := by rw [hc.hsz]
      have hroom2 : HashTable.countFilled t1.states + filledPairs rest <
          t1.keys.length := by
        rw [hlen1]
        omega
      obtain ⟨t2, hrec, hc2, hlen2, hhf2, hsz2, hnd2, hsi2, hkeys2⟩ :=
        ih t1 hc1 hroom2
      refine ⟨t2, ?_, hc2, by rw [hlen2, hlen1], by rw [hhf2, hhf1], ?_,
        fun hnd => hnd2 (hnd1 hnd), fun hsi => hsi2 (hsi1 hsi), ?_⟩
      · show HashTable.reinsertAll t ((a, St.Filled) :: rest) = some t2
        rw [HashTable.reinsertAll, if_pos rfl, hins]
        exact hrec
      · have h2 : t1.sz ≤ t.sz + 1 := hsz1b
        omega
      · intro κ
        rw [hkeys2 κ, hkeys1 κ, List.mem_cons]
        constructor
        · rintro ((h | rfl) | h)
          · exact Or.inl h
          · exact Or.inr (Or.inl rfl)
          · exact Or.inr (Or.inr h)
        · rintro (h | (h | h))
          · exact Or.inl (Or.inl h)
          · simp only [Prod.mk.injEq] at h
            exact Or.inl (Or.inr h.1)
          · exact Or.inr h
    · have hfp : filledPairs ((a, b) :: rest) = filledPairs rest := by
        simp [filledPairs, hf]
      obtain ⟨t2, hrec, hc2, hlen2, hhf2, hsz2, hnd2, hsi2, hkeys2⟩ :=
        ih t hc (by omega)
      refine ⟨t2, ?_, hc2, hlen2, hhf2, by omega, hnd2, hsi2, ?_⟩
      · show HashTable.reinsertAll t ((a, b) :: rest) = some t2
        rw [HashTable.reinsertAll, if_neg hf]
        exact hrec
      · intro κ
        rw [hkeys2 κ, List.mem_cons]
        constructor
        · rintro (h | h)
          · exact Or.inl h
          · exact Or.inr (Or.inr h)
        · rintro (h | (h | h))
          · exact Or.inl h
          · simp only [Prod.mk.injEq] at h
            exact absurd h.2.symm hf
          · exact Or.inr h

/-- Full effect of a public `insert` under the invariant: it succeeds,
restores the load bound (growing if needed), adds exactly the given key to
the stored key set, and preserves the probe-path invariant. -/
theorem insert_spec (t : HashTable) (key : Int) (h : HashTable.Inv t) :
    ∃ t2, HashTable.insert t key = some t2 ∧ HashTable.Inv t2 ∧
      t2.hashFunc = t.hashFunc ∧
      (∀ κ, HashTable.KeyIn t2 κ ↔ (HashTable.KeyIn t κ ∨ κ = key)) ∧
      (HashTable.SearchInv t → HashTable.SearchInv t2) := by
  obtain ⟨hc, hload⟩ := h
  have hroom : HashTable.countFilled t.states < t.keys.length := by
    have h2 := hc.hsz
    have h3 := hc.hcap
    omega
  obtain ⟨t1, hins, hc1, hlen1, hhf1, hsza, hszb, hkeys1, hnd1, hsi1⟩ :=
    insertInternal_spec t key hc hroom
  by_cases hov : 7 * t1.keys.length < 10 * t1.sz
  · obtain ⟨hp2, hge2, hmin2⟩ := nextPrime_spec (t1.keys.length * 2)
    have hcapf : 1 ≤ HashTable.nextPrime (t1.keys.length * 2) := by
      have := hc1.hcap
      omega
    have hcfresh : HashTable.InvCore
        { keys := List.replicate (HashTable.nextPrime (t1.keys.length * 2)) 0,
          states := List.replicate (HashTable.nextPrime (t1.keys.length * 2)) St.Empty,
          sz := 0, hashFunc := t1.hashFunc } := by
      refine ⟨by simp, ?_, by simpa using hcapf, hc1.hbound⟩
      show 0 = HashTable.countFilled (List.replicate _ St.Empty)
      rw [countFilled_replicate]
    have hcount1 : HashTable.countFilled t1.states ≤ t1.keys.length := by
      have h2 := countFilled_le t1.states
      have h3 := hc1.hlen
      omega
    have hroomf : HashTable.countFilled
        (List.replicate (HashTable.nextPrime (t1.keys.length * 2)) St.Empty) +
        filledPairs (t1.keys.zip t1.states) <
        HashTable.nextPrime (t1.keys.length * 2) := by
      rw [countFilled_replicate, filledPairs_zip t1.keys t1.states hc1.hlen]
      have h3 := hc1.hcap
      omega
    obtain ⟨t2, hrec, hc2, hlen2, hhf2, hsz2, hnd2, hsi2, hkeys2⟩ :=
      reinsertAll_spec (t1.keys.zip t1.states) _ hcfresh
        (by simpa using hroomf)
    refine ⟨t2, ?_, ?_, ?_, ?_, ?_⟩
    · show HashTable.insert t key = some t2
      simp only [HashTable.insert, hins, Option.some_bind, if_pos hov]
      show HashTable.reinsertAll _ _ = some t2
      exact hrec
    · refine ⟨hc2, ?_⟩
      have h2 : t2.sz ≤ 0 + filledPairs (t1.keys.zip t1.states) := by
        simpa using hsz2
      rw [filledPairs_zip t1.keys t1.states hc1.hlen] at h2
      have h3 : t2.keys.length = HashTable.nextPrime (t1.keys.length * 2) := by
        simpa using hlen2
      have h4 := hc1.hcap
      omega
    · rw [hhf2]
      show t1.hashFunc = t.hashFunc
      exact hhf1
    · intro κ
      rw [hkeys2 κ]
      have hfreshno : ¬ HashTable.KeyIn
          { keys := List.replicate (HashTable.nextPrime (t1.keys.length * 2)) 0,
            states := List.replicate (HashTable.nextPrime (t1.keys.length * 2)) St.Empty,
            sz := 0, hashFunc := t1.hashFunc } κ := by
        rintro ⟨j, hj, hjf, _⟩
        have h3 : (List.replicate (HashTable.nextPrime (t1.keys.length * 2))
            St.Empty).getD j St.Empty = St.Filled := hjf
        rw [getD_replicate_empty] at h3
        exact absurd h3 (by simp)
      rw [zip_filled_mem t1.keys t1.states hc1.hlen κ]
      constructor
      · rintro (h | h)
        · exact absurd h hfreshno
        · exact (hkeys1 κ).mp h
      · intro h
        exact Or.inr ((hkeys1 κ).mpr h)
    · intro _
      apply hsi2
      intro j hj hjf
      have h3 : (List.replicate (HashTable.nextPrime (t1.keys.length * 2))
          St.Empty).getD j St.Empty = St.Filled := hjf
      rw [getD_replicate_empty] at h3
      exact absurd h3 (by simp)
  · refine ⟨t1, ?_, ⟨hc1, by omega⟩, hhf1, hkeys1, hsi1⟩
    show HashTable.insert t key = some t1
    simp only [HashTable.insert, hins, Option.some_bind, if_neg hov]

/-- Operation `remove` preserves the invariant. -/
theorem remove_inv (t : HashTable) (key : Int) (h : HashTable.Inv t) :
    HashTable.Inv (HashTable.remove t key).2 := by
  obtain ⟨hc, hload⟩ := h
  have hstart : t.hashFunc key t.keys.length < t.keys.length :=
    hc.hbound key t.keys.length hc.hcap
  rcases hopt : HashTable.removeFrom t key (t.hashFunc key t.keys.length)
      (t.hashFunc key t.keys.length) t.keys.length with _ | pr
  · show HashTable.Inv (HashTable.remove t key).2
    rw [HashTable.remove, hopt]
    exact ⟨hc, hload⟩
  · obtain ⟨b, t2⟩ := pr
    have hchar := removeFrom_char t key (t.hashFunc key t.keys.length)
      t.keys.length (t.hashFunc key t.keys.length) b t2 hstart hopt
    show HashTable.Inv (HashTable.remove t key).2
    rw [HashTable.remove, hopt]
    rcases hchar with ⟨_, rfl⟩ | ⟨_, p, hp, hpf, hpk, rfl⟩
    · exact ⟨hc, hload⟩
    · have hpst : p < t.states.length := by
        have h2 := hc.hlen
        omega
    
      have hcnt := countFilled_set_deleted t.states p hpst hpf
      have hpos := countFilled_pos t.states p hpst hpf
      have hsz := hc.hsz
      refine ⟨⟨by simp [hc.hlen], ?_, by simpa using hc.hcap, hc.hbound⟩, ?_⟩
      · show t.sz - 1 = HashTable.countFilled (t.states.set p St.Deleted)
        omega
      · show 10 * (t.sz - 1) ≤ 7 * t.keys.length
        omega

/-- Operation `clear` preserves the invariant. -/
theorem clear_inv (t : HashTable) (h : HashTable.Inv t) :
    HashTable.Inv (HashTable.clear t) := by
  obtain ⟨⟨hlen, hsz, hcap, hbound⟩, hload⟩ := h
  refine ⟨⟨?_, ?_, by simpa [HashTable.clear] using hcap, hbound⟩, ?_⟩
  · simp [HashTable.clear, hlen]
  · show 0 = HashTable.countFilled (List.replicate t.states.length St.Empty)
    rw [countFilled_replicate]
  · show 10 * 0 ≤ 7 * t.keys.length
    omega

/-- Every reachable table state satisfies the full invariant: equal-length
parallel arrays, `sz` = number of `Filled` slots, positive capacity,
in-range hashing, and the post-insert load bound. -/
theorem reachable_inv (t : HashTable) (ht : HashTable.Reachable t) :
    HashTable.Inv t := by
  induction ht with
  | init capacity func hcap hfunc =>
    refine ⟨⟨by simp [HashTable.mkTable], ?_, by simpa [HashTable.mkTable] using hcap,
      ?_⟩, ?_⟩
    · show 0 = HashTable.countFilled (List.replicate capacity St.Empty)
      rw [countFilled_replicate]
    · intro k n hn
      exact hfunc k n hn
    · show 10 * 0 ≤ 7 * (List.replicate capacity (0 : Int)).length
      simp
  | insertStep ht2 hins ih =>
    obtain ⟨t2', hins', hinv', _⟩ := insert_spec _ _ ih
    rw [hins] at hins'
    injection hins' with h2
    rw [h2]
    exact hinv'
  | removeStep ht2 ih => exact remove_inv _ _ ih
  | clearStep ht2 ih => exact clear_inv _ ih

/-! ### `contains` finds every stored key -/

/-- Under the structural and probe-path invariants, `contains` answers true
for every key stored in a `Filled` slot. -/
theorem contains_of_keyIn (t : HashTable) (key : Int)
    (hc : HashTable.InvCore t) (hsi : HashTable.SearchInv t)
    (hk : HashTable.KeyIn t key) : HashTable.contains t key = true := by
  obtain ⟨j, hj, hjf, hjk⟩ := hk
  obtain ⟨d, hd, hdeq, hpath⟩ := hsi j hj hjf
  rw [hjk] at hdeq hpath
  have hstart : t.hashFunc key t.keys.length < t.keys.length :=
    hc.hbound key t.keys.length hc.hcap
  have hguard : ∀ i2, i2 < d →
      (t.hashFunc key t.keys.length + i2 + 1) % t.keys.length ≠
        t.hashFunc key t.keys.length := by
    intro i2 hi2
    rw [show t.hashFunc key t.keys.length + i2 + 1 =
      t.hashFunc key t.keys.length + (i2 + 1) from by omega]
    exact probe_no_wrap hstart (by omega) (by omega)
  have hfin : t.stateAt ((t.hashFunc key t.keys.length + d) % t.keys.length) =
      St.Filled := by
    rw [hdeq]
    exact hjf
  have hkey : t.keyAt ((t.hashFunc key t.keys.length + d) % t.keys.length) = key := by
    rw [hdeq]
    exact hjk
  have hfound := containsFrom_found t key (t.hashFunc key t.keys.length) d
    (t.hashFunc key t.keys.length) t.keys.length hstart hpath hfin hkey hd hguard
  show (HashTable.containsFrom t key (t.hashFunc key t.keys.length)
    (t.hashFunc key t.keys.length) t.keys.length).getD false = true
  rw [hfound]
  rfl

/-- A fresh table trivially satisfies the probe-path invariant. -/
theorem searchInv_mkTable (capacity : Nat) (func : Int → Nat → Nat) :
    HashTable.SearchInv (HashTable.mkTable capacity func) := by
  intro j hj hjf
  have h3 : (List.replicate capacity St.Empty).getD j St.Empty = St.Filled := hjf
  rw [getD_replicate_empty] at h3
  exact absurd h3 (by simp)

/-- Folding `insert` over a key sequence: every insert succeeds and the
final key set is the initial one plus the sequence. -/
theorem insertAll_spec :
    ∀ (K : List Int) (t : HashTable), HashTable.Inv t → HashTable.SearchInv t →
      ∃ t2, HashTable.insertAll t K = some t2 ∧ HashTable.Inv t2 ∧
        HashTable.SearchInv t2 ∧
        (∀ κ, HashTable.KeyIn t2 κ ↔ (HashTable.KeyIn t κ ∨ κ ∈ K)) := by
  intro K
  induction K with
  | nil =>
    intro t hInv hsi
    exact ⟨t, rfl, hInv, hsi, fun κ => by simp⟩
  | cons k ks ih =>
    intro t hInv hsi
    obtain ⟨t1, hins, hInv1, hhf1, hkeys1, hsi1⟩ := insert_spec t k hInv
    obtain ⟨t2, hall, hInv2, hsi2, hkeys2⟩ := ih t1 hInv1 (hsi1 hsi)
    refine ⟨t2, ?_, hInv2, hsi2, ?_⟩
    · show HashTable.insertAll t (k :: ks) = some t2
      rw [HashTable.insertAll, hins]
      simpa using hall
    · intro κ
      rw [hkeys2 κ, hkeys1 κ, List.mem_cons]
      tauto

/-! ### Cluster metrics -/

/-- The rest of the input after consuming a run never grows. -/
theorem takeRun_len : ∀ l : List St, (HashTable.takeRun l).2.length ≤ l.length := by
  intro l
  induction l with
  | nil => simp [HashTable.takeRun]
  | cons s rest ih =>
    cases s
    · simp [HashTable.takeRun]
    · simpa [HashTable.takeRun] using Nat.le_trans ih (Nat.le_succ _)
    · simp [HashTable.takeRun]

/-- A consumed run plus the `Filled` count of the rest is the total
`Filled` count. -/
theorem takeRun_count : ∀ l : List St,
    (HashTable.takeRun l).1 + HashTable.countFilled (HashTable.takeRun l).2 =
      HashTable.countFilled l := by
  intro l
  induction l with
  | nil => rfl
  | cons s rest ih =>
    cases s
    · simp [HashTable.takeRun]
    · simp only [HashTable.takeRun, HashTable.countFilled]
      simp only [if_true]
      omega
    · simp [HashTable.takeRun]

/-- Bounded-induction core of `clusters_sum`. -/
theorem clusters_sum_aux :
    ∀ (b : Nat) (l : List St), l.length ≤ b →
      (HashTable.clusters l).sum = HashTable.countFilled l := by
  intro b
  induction b with
  | zero =>
    intro l hb
    have h0 : l = [] := List.eq_nil_of_length_eq_zero (by omega)
    subst h0
    simp [HashTable.clusters, HashTable.countFilled]
  | succ b2 ih =>
    intro l hb
    rcases l with _ | ⟨s, rest⟩
    · simp [HashTable.clusters, HashTable.countFilled]
    · cases s
      · show (HashTable.clusters (St.Empty :: rest)).sum =
          HashTable.countFilled (St.Empty :: rest)
        rw [HashTable.clusters]
        rw [ih rest (by simpa using Nat.le_of_succ_le_succ (by simpa using hb))]
        simp [HashTable.countFilled]
      · show (HashTable.clusters (St.Filled :: rest)).sum =
          HashTable.countFilled (St.Filled :: rest)
        rw [HashTable.clusters]
        simp only [List.sum_cons]
        rw [ih (HashTable.takeRun rest).2
          (by
            have h2 := takeRun_len rest
            simp only [List.length_cons] at hb
            omega)]
        have h3 := takeRun_count rest
        simp only [HashTable.countFilled]
        simp only [if_true]
        omega
      · show (HashTable.clusters (St.Deleted :: rest)).sum =
          HashTable.countFilled (St.Deleted :: rest)
        rw [HashTable.clusters]
        rw [ih rest (by simpa using Nat.le_of_succ_le_succ (by simpa using hb))]
        simp [HashTable.countFilled]

/-- The total length of all clusters is exactly the number of `Filled`
slots: the clusters partition the `Filled` slots into maximal runs. -/
theorem clusters_sum (l : List St) :
    (HashTable.clusters l).sum = HashTable.countFilled l :=
  clusters_sum_aux l.length l (Nat.le_refl _)

/-! ### The claims -/

/-- Claim C1 (code bug, concrete evaluation): with capacity 3 and modulo
hashing, after insert 0, insert 3, remove 0 the table is
`[Deleted(0), Filled(3), Empty]` with size 1, so key 3 is present in a
`Filled` slot and a `Deleted` slot precedes it on its probe path.  The
claim (and the spec) say `insert(3)` is then a no-op that probes past the
`Deleted` slot; the code instead stops at the first `Deleted` slot and
writes 3 there: the table becomes `[Filled(3), Filled(3), Empty]` with
size 2 — two `Filled` slots now hold the same key and the size grew. -/
theorem c1_duplicate_insert_code_bug :
    ((HashTable.insertAll (HashTable.mkTable 3 moduloHash) [0, 3]).map fun t2 =>
        ((HashTable.remove t2 0).2.states, (HashTable.remove t2 0).2.sz,
          (HashTable.remove t2 0).2.keys)) =
      some ([St.Deleted, St.Filled, St.Empty], 1, [0, 3, 0]) ∧
    ((HashTable.insertAll (HashTable.mkTable 3 moduloHash) [0, 3]).bind fun t2 =>
        (HashTable.insert (HashTable.remove t2 0).2 3).map fun t4 =>
          (t4.states, t4.sz, t4.keys)) =
      some ([St.Filled, St.Filled, St.Empty], 2, [3, 3, 0]) := by
  constructor
  · decide
  · decide

/-- Claim C2: inserting any duplicate-free key sequence into a fresh table
(any in-range deterministic hash strategy, any capacity ≥ 1) succeeds, and
`contains` then answers true for every inserted key. -/
theorem c2_round_trip (func : Int → Nat → Nat)
    (hfunc : ∀ k n, 1 ≤ n → func k n < n) (K : List Int) (hK : K.Nodup)
    (capacity : Nat) (hcap : 1 ≤ capacity) :
    ∃ t2, HashTable.insertAll (HashTable.mkTable capacity func) K = some t2 ∧
      ∀ k, k ∈ K → HashTable.contains t2 k = true := by
  have hInv : HashTable.Inv (HashTable.mkTable capacity func) :=
    reachable_inv _ (HashTable.Reachable.init capacity func hcap hfunc)
  obtain ⟨t2, hall, hInv2, hsi2, hkeys2⟩ :=
    insertAll_spec K _ hInv (searchInv_mkTable capacity func)
  refine ⟨t2, hall, ?_⟩
  intro k hk
  exact contains_of_keyIn t2 k hInv2.1 hsi2 ((hkeys2 k).mpr (Or.inr hk))

/-- Witness for C2 at a concrete instance. -/
theorem c2_round_trip_witness :
    ∃ t2, HashTable.insertAll (HashTable.mkTable 2 moduloHash) [1, 2, 3] = some t2 ∧
      ∀ k, k ∈ [(1 : Int), 2, 3] → HashTable.contains t2 k = true :=
  c2_round_trip moduloHash (fun k n hn => Nat.mod_lt _ hn) [1, 2, 3] (by decide)
    2 (by decide)

/-- Claim C3 (code bug, concrete evaluation): with capacity 5 and modulo
hashing, the reachable sequence insert 0, insert 5, remove 0, insert 5
leaves the table `[Filled(5), Filled(5), Empty, Empty, Empty]` (the
duplicate-insert bug of C1).  Then `remove(5)` returns true, yet
`contains(5)` immediately afterwards returns true and a second `remove(5)`
also returns true — the claim (and the spec) require false for both. -/
theorem c3_remove_contains_code_bug :
    ((HashTable.insertAll (HashTable.mkTable 5 moduloHash) [0, 5]).bind fun t2 =>
        (HashTable.insert (HashTable.remove t2 0).2 5).map fun t4 =>
          ((HashTable.remove t4 5).1,
            HashTable.contains (HashTable.remove t4 5).2 5,
            (HashTable.remove (HashTable.remove t4 5).2 5).1)) =
      some (true, true, true) := by
  decide

/-- Claim C4 (counterexample): the code's Fibonacci hash reduces the 32-bit
product modulo the bucket count (low-order bits), not by the spec's
high-order-bit shift: at key 1 with 4 buckets the code yields 1 while the
spec formula yields 2. -/
theorem c4_counterexample : fibonacciHash 1 (2 ^ 2) ≠ fibonacciHashSpecShift 1 2 := by
  decide

/-- Claim C4 (amended): for a power-of-two bucket count `2 ^ b` (b ≤ 32),
`fibonacciHash` returns `(unsigned(key) * 2654435769) mod 2^b` — the
low-order bits of the wrapped 32-bit product — and the index is in range. -/
theorem c4_low_bits (key : Int) (b : Nat) (hb : b ≤ 32) :
    fibonacciHash key (2 ^ b) = (u32 key * 2654435769) % 2 ^ b ∧
      fibonacciHash key (2 ^ b) < 2 ^ b := by
  have hdvd : (2 : Nat) ^ b ∣ 2 ^ 32 := pow_dvd_pow 2 hb
  constructor
  · show (u32 key * 2654435769) % 2 ^ 32 % 2 ^ b = _
    rw [Nat.mod_mod_of_dvd _ hdvd]
  · exact Nat.mod_lt _ (by positivity)

/-- Witness for the amended C4 at a concrete instance. -/
theorem c4_low_bits_witness :
    fibonacciHash 1 (2 ^ 2) = (u32 1 * 2654435769) % 2 ^ 2 ∧
      fibonacciHash 1 (2 ^ 2) < 2 ^ 2 :=
  c4_low_bits 1 2 (by decide)

/-- Claim C5: immediately after any `insert` call returns on a reachable
table, `size / capacity ≤ 0.7` holds — and it already held on the state the
insert started from. -/
theorem c5_load_factor_bound (t t2 : HashTable) (key : Int)
    (ht : HashTable.Reachable t) (hins : HashTable.insert t key = some t2) :
    HashTable.loadFactor t2 ≤ 7 / 10 ∧ HashTable.loadFactor t ≤ 7 / 10 := by
  have hInv : HashTable.Inv t := reachable_inv t ht
  have hInv2 : HashTable.Inv t2 :=
    reachable_inv t2 (HashTable.Reachable.insertStep ht hins)
  exact ⟨loadFactor_le_of_bound t2 hInv2.1.hcap hInv2.2,
    loadFactor_le_of_bound t hInv.1.hcap hInv.2⟩

/-- Witness for C5 at a concrete instance (capacity 2, one insert). -/
theorem c5_load_factor_bound_witness :
    HashTable.loadFactor ⟨[0, 0], [St.Filled, St.Empty], 1, moduloHash⟩ ≤ 7 / 10 ∧
      HashTable.loadFactor (HashTable.mkTable 2 moduloHash) ≤ 7 / 10 :=
  c5_load_factor_bound (HashTable.mkTable 2 moduloHash)
    ⟨[0, 0], [St.Filled, St.Empty], 1, moduloHash⟩ 0
    (HashTable.Reachable.init 2 moduloHash (by omega) (fun k n hn => Nat.mod_lt _ hn))
    (by rfl)

/-- Claim C6: when an insert leaves the load factor above 0.7, growth
fires: the new capacity is the smallest prime ≥ 2 × the old capacity, the
rebuilt table has no tombstone, its size again counts its `Filled` slots,
and it stores exactly the keys that were in `Filled` slots before the
rebuild. -/
theorem c6_growth (t t1 : HashTable) (key : Int) (ht : HashTable.Reachable t)
    (hins : HashTable.insertInternal t key = some t1)
    (hover : (7 : ℚ) / 10 < HashTable.loadFactor t1) :
    ∃ t2, HashTable.insert t key = some t2 ∧
      t2.keys.length = HashTable.nextPrime (2 * t.keys.length) ∧
      Nat.Prime t2.keys.length ∧
      2 * t.keys.length ≤ t2.keys.length ∧
      (∀ p, Nat.Prime p → 2 * t.keys.length ≤ p → t2.keys.length ≤ p) ∧
      HashTable.NoDeleted t2 ∧
      t2.sz = HashTable.countFilled t2.states ∧
      (∀ κ, HashTable.KeyIn t2 κ ↔ HashTable.KeyIn t1 κ) := by
  obtain ⟨hcInv, hload⟩ := reachable_inv t ht
  have hroom : HashTable.countFilled t.states < t.keys.length := by
    have h2 := hcInv.hsz
    have h3 := hcInv.hcap
    omega
  obtain ⟨t1', hins', hc1, hlen1, hhf1, hsza, hszb, hkeys1, hnd1, hsi1⟩ :=
    insertInternal_spec t key hcInv hroom
  rw [hins] at hins'
  injection hins' with heq1
  rw [← heq1] at hc1 hlen1 hhf1 hsza hszb hkeys1 hnd1 hsi1
  have hovInt : 7 * t1.keys.length < 10 * t1.sz :=
    (loadFactor_gt_iff t1 hc1.hcap).mp hover
  obtain ⟨hp2, hge2, hmin2⟩ := nextPrime_spec (t1.keys.length * 2)
  have hcapf : 1 ≤ HashTable.nextPrime (t1.keys.length * 2) := by
    have h2 := hc1.hcap
    omega
  have hcfresh : HashTable.InvCore
      { keys := List.replicate (HashTable.nextPrime (t1.keys.length * 2)) 0,
        states := List.replicate (HashTable.nextPrime (t1.keys.length * 2)) St.Empty,
        sz := 0, hashFunc := t1.hashFunc } := by
    refine ⟨by simp, ?_, by simpa using hcapf, hc1.hbound⟩
    show 0 = HashTable.countFilled (List.replicate _ St.Empty)
    rw [countFilled_replicate]
  have hroomf : HashTable.countFilled
      (List.replicate (HashTable.nextPrime (t1.keys.length * 2)) St.Empty) +
      filledPairs (t1.keys.zip t1.states) <
      HashTable.nextPrime (t1.keys.length * 2) := by
    rw [countFilled_replicate, filledPairs_zip t1.keys t1.states hc1.hlen]
    have h2 := countFilled_le t1.states
    have h3 := hc1.hlen
    have h4 := hc1.hcap
    omega
  obtain ⟨t2, hrec, hc2, hlen2, hhf2, hsz2, hnd2, hsi2, hkeys2⟩ :=
    reinsertAll_spec (t1.keys.zip t1.states) _ hcfresh (by simpa using hroomf)
  have hlen2s : t2.keys.length = HashTable.nextPrime (t1.keys.length * 2) := by
    simpa using hlen2
  have hmul : t1.keys.length * 2 = 2 * t.keys.length := by omega
  refine ⟨t2, ?_, by rw [hlen2s, hmul], ?_, ?_, ?_, ?_, hc2.hsz, ?_⟩
  · show HashTable.insert t key = some t2
    simp only [HashTable.insert, hins, Option.some_bind, if_pos hovInt]
    show HashTable.reinsertAll _ _ = some t2
    exact hrec
  · rw [hlen2s]
    exact hp2
  · rw [hlen2s]
    omega
  · intro p hp hgep
    rw [hlen2s]
    by_contra hlt
    push_neg at hlt
    exact hmin2 p (by omega) hlt hp
  · apply hnd2
    intro i hi
    show (List.replicate (HashTable.nextPrime (t1.keys.length * 2)) St.Empty).getD i
      St.Empty ≠ St.Deleted
    rw [getD_replicate_empty]
    simp
  · intro κ
    rw [hkeys2 κ]
    have hfreshno : ¬ HashTable.KeyIn
        { keys := List.replicate (HashTable.nextPrime (t1.keys.length * 2)) 0,
          states := List.replicate (HashTable.nextPrime (t1.keys.length * 2)) St.Empty,
          sz := 0, hashFunc := t1.hashFunc } κ := by
      rintro ⟨j, hj, hjf, _⟩
      have h3 : (List.replicate (HashTable.nextPrime (t1.keys.length * 2))
          St.Empty).getD j St.Empty = St.Filled := hjf
      rw [getD_replicate_empty] at h3
      exact absurd h3 (by simp)
    rw [zip_filled_mem t1.keys t1.states hc1.hlen κ]
    constructor
    · rintro (h | h)
      · exact absurd h hfreshno
      · exact h
    · intro h
      exact Or.inr h

/-- Witness for C6: capacity 1, inserting one key forces growth. -/
theorem c6_growth_witness :
    ∃ t2, HashTable.insert (HashTable.mkTable 1 moduloHash) 5 = some t2 ∧
      t2.keys.length =
        HashTable.nextPrime (2 * (HashTable.mkTable 1 moduloHash).keys.length) ∧
      Nat.Prime t2.keys.length ∧
      2 * (HashTable.mkTable 1 moduloHash).keys.length ≤ t2.keys.length ∧
      (∀ p, Nat.Prime p →
        2 * (HashTable.mkTable 1 moduloHash).keys.length ≤ p →
        t2.keys.length ≤ p) ∧
      HashTable.NoDeleted t2 ∧
      t2.sz = HashTable.countFilled t2.states ∧
      (∀ κ, HashTable.KeyIn t2 κ ↔
        HashTable.KeyIn ⟨[5], [St.Filled], 1, moduloHash⟩ κ) :=
  c6_growth (HashTable.mkTable 1 moduloHash) ⟨[5], [St.Filled], 1, moduloHash⟩ 5
    (HashTable.Reachable.init 1 moduloHash (by omega) (fun k n hn => Nat.mod_lt _ hn))
    (by rfl)
    (by norm_num [HashTable.loadFactor])

/-- Claim C7: on a table with no `Empty` slot and the searched key absent
from every `Filled` slot, the `contains` and `remove` probes return false
within at most `capacity` steps (the fuelled loops return `some` at fuel
`capacity`, and at every larger fuel), instead of looping forever. -/
theorem c7_saturated_termination (t : HashTable) (key : Int)
    (hlen : t.keys.length = t.states.length) (hcap : 1 ≤ t.keys.length)
    (hh : t.hashFunc key t.keys.length < t.keys.length)
    (hsat : ∀ i, i < t.states.length → t.stateAt i ≠ St.Empty)
    (habs : ∀ i, i < t.states.length → t.stateAt i = St.Filled → t.keyAt i ≠ key) :
    (∀ fuel, t.keys.length ≤ fuel →
      HashTable.containsFrom t key (t.hashFunc key t.keys.length)
        (t.hashFunc key t.keys.length) fuel = some false ∧
      HashTable.removeFrom t key (t.hashFunc key t.keys.length)
        (t.hashFunc key t.keys.length) fuel = some (false, t)) ∧
    HashTable.contains t key = false ∧ HashTable.remove t key = (false, t) := by
  have hmain : ∀ fuel, t.keys.length ≤ fuel →
      HashTable.containsFrom t key (t.hashFunc key t.keys.length)
        (t.hashFunc key t.keys.length) fuel = some false ∧
      HashTable.removeFrom t key (t.hashFunc key t.keys.length)
        (t.hashFunc key t.keys.length) fuel = some (false, t) := by
    intro fuel hfuel
    have h1 := containsFrom_absent t key (t.hashFunc key t.keys.length) hlen hh
      hsat habs fuel 0 (by omega) (by omega)
    have h2 := removeFrom_absent t key (t.hashFunc key t.keys.length) hlen hh
      hsat habs fuel 0 (by omega) (by omega)
    rw [Nat.add_zero, Nat.mod_eq_of_lt hh] at h1 h2
    exact ⟨h1, h2⟩
  refine ⟨hmain, ?_, ?_⟩
  · show (HashTable.containsFrom t key (t.hashFunc key t.keys.length)
      (t.hashFunc key t.keys.length) t.keys.length).getD false = false
    rw [(hmain t.keys.length (Nat.le_refl _)).1]
    rfl
  · show (HashTable.removeFrom t key (t.hashFunc key t.keys.length)
      (t.hashFunc key t.keys.length) t.keys.length).getD (false, t) = (false, t)
    rw [(hmain t.keys.length (Nat.le_refl _)).2]
    rfl

/-- Witness for C7 at a concrete saturated table (one `Filled`, one
`Deleted`, no `Empty`; the searched key 1 is absent). -/
theorem c7_saturated_termination_witness :
    HashTable.contains ⟨[5, 7], [St.Filled, St.Deleted], 1, moduloHash⟩ 1 = false ∧
      HashTable.remove ⟨[5, 7], [St.Filled, St.Deleted], 1, moduloHash⟩ 1 =
        (false, ⟨[5, 7], [St.Filled, St.Deleted], 1, moduloHash⟩) :=
  (c7_saturated_termination ⟨[5, 7], [St.Filled, St.Deleted], 1, moduloHash⟩ 1
    (by rfl) (by decide) (by decide) (by decide) (by decide)).2

/-- Claim C8: the cluster metrics treat `Deleted` exactly like `Empty` as a
cluster boundary.  The clusters of any slot array partition its `Filled`
slots (their lengths sum to the `Filled` count), `averageChainLength` is
their total over their number (0 when there is none, by definition), and
`maxChainLength` is the longest; on the capacity-10 example
`[F,F,E,F,D,F,F,F,E,E]` the cluster lengths are `[2,1,3]`, the average 2
and the maximum 3. -/
theorem c8_cluster_metrics :
    (∀ l : List St, (HashTable.clusters l).sum = HashTable.countFilled l) ∧
    HashTable.clusters [St.Filled, St.Filled, St.Empty, St.Filled, St.Deleted,
      St.Filled, St.Filled, St.Filled, St.Empty, St.Empty] = [2, 1, 3] ∧
    HashTable.averageChainLength ⟨List.replicate 10 0,
      [St.Filled, St.Filled, St.Empty, St.Filled, St.Deleted,
       St.Filled, St.Filled, St.Filled, St.Empty, St.Empty], 6, moduloHash⟩ = 2 ∧
    HashTable.maxChainLength ⟨List.replicate 10 0,
      [St.Filled, St.Filled, St.Empty, St.Filled, St.Deleted,
       St.Filled, St.Filled, St.Filled, St.Empty, St.Empty], 6, moduloHash⟩ = 3 := by
  refine ⟨clusters_sum, ?_, ?_, ?_⟩
  · simp [HashTable.clusters, HashTable.takeRun]
  · norm_num [HashTable.averageChainLength, HashTable.clusters, HashTable.takeRun]
  · simp [HashTable.maxChainLength, HashTable.clusters, HashTable.takeRun]

/-- Witness for C8's universally quantified part at a concrete slot array. -/
theorem c8_cluster_metrics_witness :
    (HashTable.clusters [St.Filled, St.Deleted, St.Filled]).sum =
      HashTable.countFilled [St.Filled, St.Deleted, St.Filled] :=
  c8_cluster_metrics.1 [St.Filled, St.Deleted, St.Filled]

/-- Claim C9: in every reachable state the `sz` field counts the `Filled`
slots, never exceeds the capacity, and `loadFactor` is therefore the
`Filled`-slot count divided by the capacity. -/
theorem c9_size_counts_filled (t : HashTable) (ht : HashTable.Reachable t) :
    t.sz = HashTable.countFilled t.states ∧ t.sz ≤ t.keys.length ∧
      HashTable.loadFactor t =
        (HashTable.countFilled t.states : ℚ) / (t.keys.length : ℚ) := by
  obtain ⟨⟨hlen, hsz, hcap, hbound⟩, hload⟩ := reachable_inv t ht
  refine ⟨hsz, ?_, ?_⟩
  · have h2 := countFilled_le t.states
    omega
  · rw [HashTable.loadFactor, hsz]

/-- Witness for C9 on a freshly constructed table. -/
theorem c9_size_counts_filled_witness :
    (HashTable.mkTable 2 moduloHash).sz =
      HashTable.countFilled (HashTable.mkTable 2 moduloHash).states ∧
    (HashTable.mkTable 2 moduloHash).sz ≤ (HashTable.mkTable 2 moduloHash).keys.length ∧
      HashTable.loadFactor (HashTable.mkTable 2 moduloHash) =
        (HashTable.countFilled (HashTable.mkTable 2 moduloHash).states : ℚ) /
          ((HashTable.mkTable 2 moduloHash).keys.length : ℚ) :=
  c9_size_counts_filled (HashTable.mkTable 2 moduloHash)
    (HashTable.Reachable.init 2 moduloHash (by omega) (fun k n hn => Nat.mod_lt _ hn))

/-- Claim C10: on every reachable state, `insertInternal` (whose probe loop
has no wrap guard, and which is modelled with fuel `capacity`, i.e. it must
finish within `capacity` probe steps) returns, and so does the public
`insert` including its growth check: growth keeps the `Filled` count
strictly below the capacity, so the probe always reaches a non-`Filled`
slot or an equal key. -/
theorem c10_insert_terminates (t : HashTable) (key : Int)
    (ht : HashTable.Reachable t) :
    (∃ t1, HashTable.insertInternal t key = some t1) ∧
      ∃ t2, HashTable.insert t key = some t2 := by
  obtain ⟨hc, hload⟩ := reachable_inv t ht
  have hroom : HashTable.countFilled t.states < t.keys.length := by
    have h2 := hc.hsz
    have h3 := hc.hcap
    omega
  obtain ⟨t1, hins, _⟩ := insertInternal_spec t key hc hroom
  obtain ⟨t2, hins2, _⟩ := insert_spec t key ⟨hc, hload⟩
  exact ⟨⟨t1, hins⟩, ⟨t2, hins2⟩⟩

/-- Witness for C10 on a freshly constructed table. -/
theorem c10_insert_terminates_witness :
    (∃ t1, HashTable.insertInternal (HashTable.mkTable 2 moduloHash) 5 = some t1) ∧
      ∃ t2, HashTable.insert (HashTable.mkTable 2 moduloHash) 5 = some t2 :=
  c10_insert_terminates (HashTable.mkTable 2 moduloHash) 5
    (HashTable.Reachable.init 2 moduloHash (by omega) (fun k n hn => Nat.mod_lt _ hn))
